import Mathlib

/-!
Verification of the hybrid extraction engine of `src/main.py`
(class `MaterialTextProcessor`).

Texts are modelled as `List Char`: a Python `str` is a sequence of code
points, and `len`, slicing and iteration in the source are all in code
points.  Every definition below is translated from the function of
`src/main.py` named in its doc comment; the one definition following the
spec's words instead (for the refinement claim about the description
synthesizer) is named with a `_spec` suffix and marked as such.
-/

namespace ClarifAI

abbrev Text := List Char

/-- Whitespace as Python's `str.split()` / `str.strip()` and the regex
class `\s` recognise it (the ASCII part: space, tab, newline, carriage
return, vertical tab, form feed). -/
def pyWhite (c : Char) : Bool :=
  c = ' ' || c = '\t' || c = '\n' || c = '\r' || c = '\x0b' || c = '\x0c'

/-- The lowercase mapping of Python `str.lower` on the alphabet this
program processes: the ASCII letters plus the German umlauts occurring in
the keyword table and the worked examples; every other character maps to
itself. -/
def lowerPairs : List (Char × Char) :=
  [('A', 'a'), ('B', 'b'), ('C', 'c'), ('D', 'd'), ('E', 'e'), ('F', 'f'),
   ('G', 'g'), ('H', 'h'), ('I', 'i'), ('J', 'j'), ('K', 'k'), ('L', 'l'),
   ('M', 'm'), ('N', 'n'), ('O', 'o'), ('P', 'p'), ('Q', 'q'), ('R', 'r'),
   ('S', 's'), ('T', 't'), ('U', 'u'), ('V', 'v'), ('W', 'w'), ('X', 'x'),
   ('Y', 'y'), ('Z', 'z'), ('Ü', 'ü'), ('Ä', 'ä'), ('Ö', 'ö')]

/-- Python `str.lower` on one character (see `lowerPairs`). -/
def pyLower (c : Char) : Char :=
  match lowerPairs.find? (fun p => p.1 = c) with
  | some p => p.2
  | none => c

/-- Python `text.lower()`. -/
def lowerText (l : Text) : Text := l.map pyLower

/-- Python `text.strip()`: drop leading and trailing whitespace. -/
def pyStrip (l : Text) : Text :=
  ((l.dropWhile pyWhite).reverse.dropWhile pyWhite).reverse

/-- Python `text.split('|')`: split at every pipe, keeping empty segments
(the result always has at least one element). -/
def splitPipe : Text → List Text
  | [] => [[]]
  | c :: cs =>
    if c = '|' then [] :: splitPipe cs
    else
      match splitPipe cs with
      | [] => [[c]]
      | p :: ps => (c :: p) :: ps

/-- Python `pre` begins `l` (`l.startswith(pre)` restricted to the prefix
test used below). -/
def beginsWith : Text → Text → Bool
  | [], _ => true
  | _ :: _, [] => false
  | a :: as, b :: bs => a == b && beginsWith as bs

/-- Python `kw in l`: `kw` occurs as a contiguous substring of `l`. -/
def containsSub (kw : Text) : Text → Bool
  | [] => kw.isEmpty
  | l@(_ :: cs) => beginsWith kw l || containsSub kw cs

/-- Python `str.split()` with no argument: maximal runs of non-whitespace,
empty pieces dropped.  `acc` holds the current word, reversed. -/
def wordsAux (acc : Text) : Text → List Text
  | [] => if acc.isEmpty then [] else [acc.reverse]
  | c :: cs =>
    if pyWhite c then
      if acc.isEmpty then wordsAux [] cs else acc.reverse :: wordsAux [] cs
    else wordsAux (c :: acc) cs

/-- Python `text.split()` (no separator). -/
def pyWords (l : Text) : List Text := wordsAux [] l

/-- The structured extraction result: the JSON-shaped dict every path of
the code builds (`product_name`, `characteristics`, `material_type`,
`unit_of_measure`, `categorization`, `short_description`). -/
structure ProductInfo where
  product_name : Text
  characteristics : List Text
  material_type : Text
  unit_of_measure : Text
  categorization : List (Text × Text)
  short_description : Text
deriving Repr, DecidableEq

/-- The trimmed non-empty pipe segments:
`[p.strip() for p in text.split('|') if p.strip()]` (lines 106 and 223). -/
def pipeParts (text : Text) : List Text :=
  ((splitPipe text).map pyStrip).filter (fun p => !p.isEmpty)

/-- The ordered keyword table `type_keywords` of `_simple_extraction`
(lines 121–126; Python dicts iterate in insertion order). -/
def type_keywords : List (Text × List Text) :=
  [("filter".data, ["filter".data, "wasserfilter".data]),
   ("electrical".data, ["schütz".data, "relais".data, "spannung".data, "leistung".data]),
   ("mechanical".data, ["lager".data, "welle".data, "ring".data, "buchse".data]),
   ("seal".data, ["dicht".data, "dichtung".data])]

/-- The `material_type` loop of `_simple_extraction` (lines 120–131): the
first table entry with any keyword occurring in the lowercased full text
wins; no match leaves "other". -/
def classifyMaterial (text : Text) : Text :=
  match type_keywords.find? (fun e => e.2.any (fun kw => containsSub kw (lowerText text))) with
  | some e => e.1
  | none => "other".data

/-- The product-name step shared verbatim by `_simple_extraction`
(lines 112–115) and `_create_fallback_info` (lines 236–238):
`parts[0][4:].strip()` when `parts[0].lower()` starts with `"für "`,
else `parts[0]` unchanged. -/
def nameOfFirstPart (p0 : Text) : Text :=
  if beginsWith "für ".data (lowerText p0) then pyStrip (p0.drop 4) else p0

/-- The short-description synthesis inlined in `_simple_extraction`
(lines 133–146).  Note the strict test `remaining_space > 3` on line 142;
the final `short_desc[:40]` of line 146 applies on every branch. -/
def simple_short_desc (name : Text) (characteristics : List Text) : Text :=
  match characteristics with
  | [] => name.take 40
  | c0 :: _ =>
    if name.length + 1 + c0.length ≤ 40 then (name ++ ' ' :: c0).take 40
    else
      let remaining_space : Int := 40 - (name.length : Int) - 1
      if remaining_space > 3 then (name ++ ' ' :: c0.take remaining_space.toNat).take 40
      else name.take 40

/-- Translation of `_create_fallback_info` (lines 221–253). -/
def create_fallback_info (text : Text) : ProductInfo :=
  match pipeParts text with
  | [] =>
    { product_name := [], characteristics := [], material_type := "other".data,
      unit_of_measure := "ST".data, categorization := [], short_description := [] }
  | p0 :: rest =>
    let name := nameOfFirstPart p0
    let short_desc :=
      match rest with
      | [] => name
      | p1 :: _ => if name.length + p1.length + 1 ≤ 40 then name ++ ' ' :: p1 else name
    { product_name := name, characteristics := rest, material_type := "other".data,
      unit_of_measure := "ST".data, categorization := [],
      short_description := short_desc.take 40 }

/-- Translation of `_simple_extraction` (lines 103–159); its `try` body
never raises in this pure model, so the `except` branch (which would
delegate to the fallback builder) is dead. -/
def simple_extraction (text : Text) : ProductInfo :=
  match pipeParts text with
  | [] => create_fallback_info text
  | p0 :: rest =>
    { product_name := nameOfFirstPart p0,
      characteristics := rest,
      material_type := classifyMaterial text,
      unit_of_measure := "ST".data,
      categorization := [],
      short_description := simple_short_desc (nameOfFirstPart p0) rest }

/-- The rebuild branch of `_create_standardized_description`
(lines 263–276).  Note the non-strict test `space_left >= 3` on line 273,
unlike line 142 of `_simple_extraction`. -/
def std_rebuild (name : Text) (characteristics : List Text) : Text :=
  match characteristics with
  | [] => name.take 40
  | c0 :: _ =>
    if name.length + 1 + c0.length ≤ 40 then (name ++ ' ' :: c0).take 40
    else
      let space_left : Int := 40 - (name.length : Int) - 1
      if space_left ≥ 3 then (name ++ ' ' :: c0.take space_left.toNat).take 40
      else name.take 40

/-- Translation of `_create_standardized_description` (lines 255–276):
prefer a present, ≤ 40 character `short_description` verbatim; otherwise
rebuild from name and first characteristic. -/
def create_standardized_description (info : ProductInfo) : Text :=
  if info.short_description ≠ [] ∧ info.short_description.length ≤ 40 then
    info.short_description
  else
    std_rebuild info.product_name info.characteristics

/-- Modelled from the spec, §4.5 (DescriptionSynthesizer), for the
refinement claim: start with the name; if a characteristic exists append
it in full when it fits in 40, otherwise compute
`remaining = 40 - len(name) - 1` and append its first `remaining`
characters iff `remaining >= 3`; hard-truncate to 40. -/
def synthesize_spec (name : Text) (characteristics : List Text) : Text :=
  match characteristics with
  | [] => name.take 40
  | c0 :: _ =>
    if name.length + 1 + c0.length ≤ 40 then (name ++ ' ' :: c0).take 40
    else
      let remaining : Int := 40 - (name.length : Int) - 1
      if remaining ≥ 3 then (name ++ ' ' :: c0.take remaining.toNat).take 40
      else name.take 40

/-- Python `re.sub(r'\s+', ' ', text)` (line 30 of `_preprocess_text`),
and also the run-collapsing half of `' '.join(text.split())` (line 25):
every maximal whitespace run becomes one space.  `prev` records whether
the previous character was whitespace. -/
def collapseAux (prev : Bool) : Text → Text
  | [] => []
  | c :: cs =>
    if pyWhite c then
      if prev then collapseAux true cs else ' ' :: collapseAux true cs
    else c :: collapseAux false cs

/-- Whitespace runs collapsed to single spaces. -/
def collapse (l : Text) : Text := collapseAux false l

/-- Python `text.replace("//", " | ")` (line 28): left-to-right,
non-overlapping. -/
def replaceDS : Text → Text
  | [] => []
  | [c] => [c]
  | a :: b :: cs =>
    if a = '/' ∧ b = '/' then ' ' :: '|' :: ' ' :: replaceDS cs
    else a :: replaceDS (b :: cs)

/-- Scanner state for `re.sub(r'\s+\|\s+', ' | ', text)` (line 29):
`norm` = outside any candidate match; `run pend` = inside a whitespace run
(`pend` holds it, reversed) that may open a match; `sep pend` = that run
was followed by `'|'`, awaiting one more whitespace; `consume` = a match
was emitted, its trailing `\s+` is being consumed. -/
inductive SepState where
  | norm
  | run (pend : Text)
  | sep (pend : Text)
  | consume

/-- Python `re.sub(r'\s+\|\s+', ' | ', text)` (line 29) as a left-to-right
scan: a maximal whitespace run followed by `'|'` followed by at least one
whitespace character is the leftmost match (the leading `\s+` is greedy,
so no shorter leading run can match), is replaced by `' | '`, and the scan
resumes after the match's greedy trailing run; anything else is copied. -/
def normSepAux : SepState → Text → Text
  | .norm, [] => []
  | .norm, c :: cs =>
    if pyWhite c then normSepAux (.run [c]) cs
    else c :: normSepAux .norm cs
  | .run pend, [] => pend.reverse
  | .run pend, c :: cs =>
    if pyWhite c then normSepAux (.run (c :: pend)) cs
    else if c = '|' then normSepAux (.sep pend) cs
    else pend.reverse ++ c :: normSepAux .norm cs
  | .sep pend, [] => pend.reverse ++ ['|']
  | .sep pend, c :: cs =>
    if pyWhite c then ' ' :: '|' :: ' ' :: normSepAux .consume cs
    else pend.reverse ++ '|' :: c :: normSepAux .norm cs
  | .consume, [] => []
  | .consume, c :: cs =>
    if pyWhite c then normSepAux .consume cs
    else c :: normSepAux .norm cs

/-- Separator normalisation, started outside any match. -/
def normSep (l : Text) : Text := normSepAux .norm l

/-- Translation of `_preprocess_text` (lines 19–32) on an actual string:
`' '.join(text.split())` collapses every whitespace run to one space and
strips the ends (so it equals `pyStrip (collapse ·)`); then `"//"` becomes
`" | "`; then whitespace-flanked pipes are normalised; then whitespace
runs are collapsed again and the ends stripped. -/
def preprocess_text (l : Text) : Text :=
  pyStrip (collapse (normSep (replaceDS (pyStrip (collapse l)))))

/-- A Python value passed to `_preprocess_text`: a string, or anything
that is not a string (line 21 returns `""` for the latter). -/
inductive PyInput where
  | str (s : Text)
  | nonstr

/-- Translation of `_preprocess_text` (lines 19–32) including the
non-string guard of lines 21–22. -/
def preprocess_val : PyInput → Text
  | .str s => preprocess_text s
  | .nonstr => []

/-- The three run counters of `MaterialTextProcessor.__init__`
(lines 15–17): `llm_calls`, `llm_errors`, `llm_fallbacks`. -/
structure Counters where
  llm_calls : Nat
  llm_errors : Nat
  llm_fallbacks : Nat
deriving Repr, DecidableEq

/-- The outcome of one iteration of the retry loop of
`_call_llm_for_extraction` (lines 166–197), as seen from the counter and
control flow of the source:
* `connError`: `chat` raised `ConnectionError` (caught on line 187);
* `chatError`: `chat` raised any other exception, or returned an empty
  response (the `ValueError` of line 180) — in both cases the failure
  happens before the `self.llm_calls += 1` of line 182;
* `parseError`: `chat` returned content (so line 182 already ran) and
  `_parse_llm_response` then raised;
* `ok info`: `chat` returned content and parsing yielded `info`.
The backoff sleeps of lines 190 and 196 have no observable effect here. -/
inductive LLMEvent where
  | connError
  | chatError
  | parseError
  | ok (info : ProductInfo)
deriving Repr, DecidableEq

/-- The retry loop of `_call_llm_for_extraction` (lines 161–201), driven
by a script `ev` giving each attempt's outcome (`ev i` is the outcome of
the 1-based attempt `i + 1`).  Arguments: attempts still allowed, attempts
already made, counters.  Returns the parsed result (`none` models the
terminal `RuntimeError("All LLM attempts failed")` of line 201, preceded
by `self.llm_errors += 1` on line 200), the updated counters, and the
total number of attempts made. -/
def llmAttempts (ev : Nat → LLMEvent) : Nat → Nat → Counters → Option ProductInfo × Counters × Nat
  | 0, made, c => (none, { c with llm_errors := c.llm_errors + 1 }, made)
  | n + 1, made, c =>
    match ev made with
    | .ok info => (some info, { c with llm_calls := c.llm_calls + 1 }, made + 1)
    | .parseError => llmAttempts ev n (made + 1) { c with llm_calls := c.llm_calls + 1 }
    | .connError => llmAttempts ev n (made + 1) c
    | .chatError => llmAttempts ev n (made + 1) c

/-- `_call_llm_for_extraction` with `max_retries = 3` (line 163). -/
def call_llm_for_extraction (ev : Nat → LLMEvent) (c : Counters) :
    Option ProductInfo × Counters × Nat :=
  llmAttempts ev 3 0 c

/-- Translation of `_extract_with_fallback` (lines 203–219): run the
heuristic, escalate to the LLM iff it found no characteristics or a
single-token name (lines 210–211); a failing LLM call (any exception,
here `none`) falls back to `_create_fallback_info` after
`self.llm_fallbacks += 1` (line 218). -/
def extract_with_fallback (ev : Nat → LLMEvent) (text : Text) (c : Counters) :
    ProductInfo × Counters :=
  let result := simple_extraction text
  if result.characteristics.length = 0 ∨ (pyWords result.product_name).length = 1 then
    match call_llm_for_extraction ev c with
    | (some info, c1, _) => (info, c1)
    | (none, c1, _) =>
      (create_fallback_info text, { c1 with llm_fallbacks := c1.llm_fallbacks + 1 })
  else (result, c)

/-- One stored row of `process_materials` (`self.answer_list`,
lines 302–307 and 323–328): the success shape keeps the structured info
and no error, the failure shape keeps the error message with the literal
final description "ERROR". -/
structure MaterialRecord where
  original_text : Text
  structured_info : Option ProductInfo
  final_description : Text
  error : Option Text
deriving Repr, DecidableEq

/-- One iteration of the `try` body of `process_materials`
(lines 285–318), for a row whose description column holds `text`:
`none` models the `continue` of line 293 (empty cleaned text, no record);
otherwise the structured info and final description are produced.  The
body is a `Except`-valued parameter in `process_materials` below so that
the claim "any exception during a row" quantifies over every way the body
can raise. -/
def rowOutcome (cleanedText : Text → Text) (ev : Nat → LLMEvent) (text : Text) :
    Except Text (Option (ProductInfo × Text)) :=
  let cleaned := cleanedText text
  if cleaned.isEmpty then .ok none
  else
    let product_info := (extract_with_fallback ev cleaned ⟨0, 0, 0⟩).1
    .ok (some (product_info, create_standardized_description product_info))

/-- The batch loop of `process_materials` (lines 283–328): each row's body
either yields `none` (row skipped), a record payload, or raises with a
message; a raising row is still appended, with `error` set to the message
and `final_description` set to the literal "ERROR" (lines 323–328), and
the loop continues. -/
def process_materials (body : Text → Except Text (Option (ProductInfo × Text))) :
    List Text → List MaterialRecord
  | [] => []
  | t :: ts =>
    match body t with
    | .ok none => process_materials body ts
    | .ok (some (info, final)) =>
      { original_text := t, structured_info := some info,
        final_description := final, error := none } :: process_materials body ts
    | .error msg =>
      { original_text := t, structured_info := none,
        final_description := "ERROR".data, error := some msg } :: process_materials body ts

/-- Every whitespace character of `l` is the plain space. -/
def SpacesOnly (l : Text) : Prop := ∀ c ∈ l, pyWhite c = true → c = ' '

/-- No two adjacent whitespace characters. -/
def NoWW (l : Text) : Prop := l.Chain' (fun a b => ¬(pyWhite a = true ∧ pyWhite b = true))

/-- No two adjacent slashes (no "//" substring). -/
def NoDS (l : Text) : Prop := l.Chain' (fun a b => ¬(a = '/' ∧ b = '/'))

/-- Neither end of `l` is whitespace. -/
def TrimmedEnds (l : Text) : Prop :=
  (∀ c, l.head? = some c → pyWhite c = false) ∧ (∀ c, l.getLast? = some c → pyWhite c = false)

/-- A ProductInfo as the generative path can return it: the code passes the
parsed JSON object through without validating the 40-character cap. -/
def overlongInfo : ProductInfo :=
  { product_name := "x".data, characteristics := [], material_type := "other".data,
    unit_of_measure := "ST".data, categorization := [],
    short_description := List.replicate 41 'y' }


example : pipeParts "a | b |  | c".data = ["a".data, "b".data, "c".data] := by decide
example : pyWords "  foo  bar ".data = ["foo".data, "bar".data] := by decide
example : pyWords "".data = [] := by decide
example : containsSub "chüt".data "schütz".data = true := by decide
example : preprocess_text "für  APIC  // x".data = "für APIC | x".data := by decide
example : preprocess_text "a///b".data = "a | /b".data := by decide

/-! ## Shared helper lemmas -/

lemma take40_length_le (l : Text) : (l.take 40).length ≤ 40 := by
  rw [List.length_take]
  exact min_le_left _ _

lemma simple_short_desc_length_le (name : Text) (chars : List Text) :
    (simple_short_desc name chars).length ≤ 40 := by
  unfold simple_short_desc
  cases chars with
  | nil => exact take40_length_le _
  | cons c0 rest => dsimp only; split_ifs <;> exact take40_length_le _

lemma std_rebuild_length_le (name : Text) (chars : List Text) :
    (std_rebuild name chars).length ≤ 40 := by
  unfold std_rebuild
  cases chars with
  | nil => exact take40_length_le _
  | cons c0 rest => dsimp only; split_ifs <;> exact take40_length_le _

lemma create_fallback_info_short_le (text : Text) :
    (create_fallback_info text).short_description.length ≤ 40 := by
  unfold create_fallback_info
  split
  · simp
  · exact take40_length_le _

lemma simple_extraction_short_le (text : Text) :
    (simple_extraction text).short_description.length ≤ 40 := by
  unfold simple_extraction
  split
  · exact create_fallback_info_short_le text
  · exact simple_short_desc_length_le _ _

/-! ## C1 — length invariants -/

/-- C1 (amended): the final description is at most 40 characters for every
structured info it is built from, and the `short_description` of every
ProductInfo built by the heuristic path or the fallback path is at most 40
characters.  (The generative path is excluded: see the counterexample.) -/
theorem C1_short_description_bound_amended :
    (∀ info : ProductInfo, (create_standardized_description info).length ≤ 40)
    ∧ (∀ text : Text, (simple_extraction text).short_description.length ≤ 40)
    ∧ (∀ text : Text, (create_fallback_info text).short_description.length ≤ 40) := by
  refine ⟨fun info => ?_, simple_extraction_short_le, create_fallback_info_short_le⟩
  unfold create_standardized_description
  split
  · next h => exact h.2
  · exact std_rebuild_length_le _ _

/-- C1 (counterexample): on the normalized text "abc" (single-token name,
so the orchestrator escalates) with the generative call returning a
41-character `short_description`, the produced ProductInfo violates the
claimed 40-character bound: the code never truncates the generative
result. -/
theorem C1_generative_overlong_counterexample :
    ¬ ((extract_with_fallback (fun _ => .ok overlongInfo) "abc".data
          ⟨0, 0, 0⟩).1.short_description.length ≤ 40) := by decide

/-! ## C4 — the two synthesis sites -/

/-- C4 (counterexample): for a 36-character name and the 5-character first
characteristic "bcdef" the remaining space is exactly 3, and the two
synthesis sites disagree: `_simple_extraction` (strict `> 3`) appends
nothing, while `_create_standardized_description` (`>= 3`) appends
" bcd". -/
theorem C4_threshold_counterexample :
    simple_short_desc (List.replicate 36 'a') ["bcdef".data] = List.replicate 36 'a'
    ∧ std_rebuild (List.replicate 36 'a') ["bcdef".data]
        = List.replicate 36 'a' ++ " bcd".data
    ∧ simple_short_desc (List.replicate 36 'a') ["bcdef".data]
        ≠ std_rebuild (List.replicate 36 'a') ["bcdef".data] := by decide

/-- C4 (amended): the final-description reconstruction follows the spec's
shared algorithm (threshold `remaining >= 3`) exactly, and the synthesis
inlined in the heuristic extractor agrees with it on every input except
when the first characteristic does not fit and `40 - len(name) - 1` equals
exactly 3 (where the heuristic site, testing `> 3`, appends nothing). -/
theorem C4_synthesis_agreement_amended (name c0 : Text) (rest : List Text)
    (h : (40 : Int) - name.length - 1 ≠ 3 ∨ name.length + 1 + c0.length ≤ 40) :
    simple_short_desc name (c0 :: rest) = std_rebuild name (c0 :: rest)
    ∧ (∀ n : Text, ∀ cs : List Text, std_rebuild n cs = synthesize_spec n cs) := by
  constructor
  · unfold simple_short_desc std_rebuild
    dsimp only
    split_ifs with h1 h2 h3 h4 <;> first
      | rfl
      | (exfalso; omega)
  · intro n cs
    rfl

/-- Witness for C4: a concrete input where the first characteristic fits. -/
theorem C4_synthesis_agreement_witness :
    simple_short_desc "ab".data ["cd".data] = std_rebuild "ab".data ["cd".data]
    ∧ (∀ n : Text, ∀ cs : List Text, std_rebuild n cs = synthesize_spec n cs) :=
  C4_synthesis_agreement_amended "ab".data "cd".data [] (Or.inr (by decide))

/-! ## C7 — heuristic worked example -/

/-- C7: on the normalized input
"für APIC Wasserfilter FMA 9000 | Ref: 9000/CPF01/230/VH | Pos. 48" the
heuristic extractor strips the case-insensitive "für " prefix from the
name, keeps the remaining segments as characteristics in source order, and
classifies the material type as "filter". -/
theorem C7_heuristic_worked_example :
    (simple_extraction "für APIC Wasserfilter FMA 9000 | Ref: 9000/CPF01/230/VH | Pos. 48".data).product_name
        = "APIC Wasserfilter FMA 9000".data
    ∧ (simple_extraction "für APIC Wasserfilter FMA 9000 | Ref: 9000/CPF01/230/VH | Pos. 48".data).characteristics
        = ["Ref: 9000/CPF01/230/VH".data, "Pos. 48".data]
    ∧ (simple_extraction "für APIC Wasserfilter FMA 9000 | Ref: 9000/CPF01/230/VH | Pos. 48".data).material_type
        = "filter".data := by decide

/-! ## C6 — material-type classification -/

/-- C6: the heuristic extractor classifies `material_type` by scanning the
fixed ordered keyword table (filter, then electrical, then mechanical,
then seal) against the lowercased full text; the first entry with any
matching keyword wins and no match leaves "other"; in particular the
Siemens Schütz example classifies as "electrical". -/
theorem C6_material_type_table_scan :
    (∀ text : Text,
      classifyMaterial text =
        if (containsSub "filter".data (lowerText text)
            || containsSub "wasserfilter".data (lowerText text)) = true then "filter".data
        else if (containsSub "schütz".data (lowerText text)
            || (containsSub "relais".data (lowerText text)
            || (containsSub "spannung".data (lowerText text)
            || containsSub "leistung".data (lowerText text)))) = true then "electrical".data
        else if (containsSub "lager".data (lowerText text)
            || (containsSub "welle".data (lowerText text)
            || (containsSub "ring".data (lowerText text)
            || containsSub "buchse".data (lowerText text)))) = true then "mechanical".data
        else if (containsSub "dicht".data (lowerText text)
            || containsSub "dichtung".data (lowerText text)) = true then "seal".data
        else "other".data)
    ∧ classifyMaterial "Siemens Schütz | Spulensp. 230V, 50HZ/AC | Leistung 45,0 KW/400V".data
        = "electrical".data := by
  constructor
  · intro text
    simp only [classifyMaterial, type_keywords, List.find?, List.any_cons, List.any_nil,
      Bool.or_false]
    rcases h1 : (containsSub "filter".data (lowerText text)
        || containsSub "wasserfilter".data (lowerText text)) with _ | _ <;>
      rcases h2 : (containsSub "schütz".data (lowerText text)
        || (containsSub "relais".data (lowerText text)
        || (containsSub "spannung".data (lowerText text)
        || containsSub "leistung".data (lowerText text)))) with _ | _ <;>
      rcases h3 : (containsSub "lager".data (lowerText text)
        || (containsSub "welle".data (lowerText text)
        || (containsSub "ring".data (lowerText text)
        || containsSub "buchse".data (lowerText text)))) with _ | _ <;>
      rcases h4 : (containsSub "dicht".data (lowerText text)
        || containsSub "dichtung".data (lowerText text)) with _ | _ <;>
      simp [h1, h2, h3, h4]
  · decide

/-! ## C2 — escalation rule -/

/-- C2: the orchestrator consults the generative path (observable as the
call-success counter moving when the scripted call succeeds immediately)
exactly when the heuristic result has no characteristics or a single-token
product name; otherwise the heuristic result and the counters are returned
untouched. -/
theorem C2_escalation_iff (text : Text) (c : Counters) (info : ProductInfo) :
    ((extract_with_fallback (fun _ => .ok info) text c).2.llm_calls = c.llm_calls + 1
      ↔ ((simple_extraction text).characteristics = []
          ∨ (pyWords (simple_extraction text).product_name).length = 1))
    ∧ ((extract_with_fallback (fun _ => .ok info) text c) = (simple_extraction text, c)
      ↔ ¬ ((simple_extraction text).characteristics = []
          ∨ (pyWords (simple_extraction text).product_name).length = 1)) := by
  by_cases hc : (simple_extraction text).characteristics = []
      ∨ (pyWords (simple_extraction text).product_name).length = 1
  case pos =>
    have hccode : (simple_extraction text).characteristics.length = 0
        ∨ (pyWords (simple_extraction text).product_name).length = 1 := by
      rwa [List.length_eq_zero]
    have hr : extract_with_fallback (fun _ => .ok info) text c
        = (info, { c with llm_calls := c.llm_calls + 1 }) := by
      simp only [extract_with_fallback]
      rw [if_pos hccode]
      simp [call_llm_for_extraction, llmAttempts]
    rw [hr]
    refine ⟨Iff.intro (fun _ => hc) (fun _ => rfl),
            Iff.intro (fun habs => ?_) (fun habs => absurd hc habs)⟩
    have h2 := congrArg (fun p => p.2.llm_calls) habs
    simp at h2
  case neg =>
    have hccode : ¬ ((simple_extraction text).characteristics.length = 0
        ∨ (pyWords (simple_extraction text).product_name).length = 1) := by
      rwa [List.length_eq_zero]
    have hr : extract_with_fallback (fun _ => .ok info) text c
        = (simple_extraction text, c) := by
      simp only [extract_with_fallback]
      rw [if_neg hccode]
    rw [hr]
    refine ⟨Iff.intro
        (fun habs => absurd (show c.llm_calls = c.llm_calls + 1 from habs) (by omega))
        (fun hcnd => absurd hcnd hc),
      Iff.intro (fun _ => hc) (fun _ => rfl)⟩

/-! ## C3 — retry loop accounting -/

lemma llmAttempts_made_le (ev : Nat → LLMEvent) :
    ∀ (n made : Nat) (c : Counters), (llmAttempts ev n made c).2.2 ≤ made + n := by
  intro n
  induction n with
  | zero => intro made c; simp [llmAttempts]
  | succ k ih =>
    intro made c
    rcases hev : ev made with _ | _ | _ | i <;>
      simp only [llmAttempts, hev] <;>
      first
        | omega
        | (exact le_trans (ih (made + 1) _) (by omega))

/-- C3 (counterexample): three consecutive parse failures do not leave the
call-success counter at 0 as the claim states: `llm_calls` is incremented
on line 182, before `_parse_llm_response` can raise, so the run ends with
`llm_calls = 3` (together with `llm_errors = 1` and one fallback
increment). -/
theorem C3_parse_failure_counterexample :
    (extract_with_fallback (fun _ => .parseError) "abc".data ⟨0, 0, 0⟩).2
      = { llm_calls := 3, llm_errors := 1, llm_fallbacks := 1 }
    ∧ (extract_with_fallback (fun _ => .parseError) "abc".data ⟨0, 0, 0⟩).2.llm_calls ≠ 0 := by
  decide

/-- C3 (amended): the retry loop makes at most 3 attempts; a successful
attempt increments the call-success counter once and stops; two
connectivity failures followed by a success give 3 attempts, success
counter +1, failure counter unchanged; three failures that occur before
the success counter moves (connectivity or pre-parse errors) end with the
all-attempts-failed outcome, failure counter +1, success counter
unchanged, and exactly one fallback increment; but three parse failures,
occurring after the increment of line 182, end with the success counter
advanced by 3. -/
theorem C3_retry_accounting_amended (ev : Nat → LLMEvent) (c : Counters) (info : ProductInfo) :
    (call_llm_for_extraction ev c).2.2 ≤ 3
    ∧ (ev 0 = .ok info →
        call_llm_for_extraction ev c
          = (some info, { c with llm_calls := c.llm_calls + 1 }, 1))
    ∧ (ev 0 = .connError → ev 1 = .connError → ev 2 = .ok info →
        call_llm_for_extraction ev c
          = (some info, { c with llm_calls := c.llm_calls + 1 }, 3))
    ∧ ((∀ i, i < 3 → ev i = .connError ∨ ev i = .chatError) →
        call_llm_for_extraction ev c = (none, { c with llm_errors := c.llm_errors + 1 }, 3)
        ∧ extract_with_fallback ev "abc".data c =
            (create_fallback_info "abc".data,
             { c with llm_errors := c.llm_errors + 1, llm_fallbacks := c.llm_fallbacks + 1 }))
    ∧ ((∀ i, i < 3 → ev i = .parseError) →
        call_llm_for_extraction ev c =
          (none, { c with llm_calls := c.llm_calls + 3, llm_errors := c.llm_errors + 1 }, 3)) := by
  refine ⟨llmAttempts_made_le ev 3 0 c, ?_, ?_, ?_, ?_⟩
  · intro h0
    simp [call_llm_for_extraction, llmAttempts, h0]
  · intro h0 h1 h2
    simp [call_llm_for_extraction, llmAttempts, h0, h1, h2]
  · intro h
    have hcall : call_llm_for_extraction ev c
        = (none, { c with llm_errors := c.llm_errors + 1 }, 3) := by
      rcases h 0 (by omega) with h0 | h0 <;> rcases h 1 (by omega) with h1 | h1 <;>
        rcases h 2 (by omega) with h2 | h2 <;>
        simp [call_llm_for_extraction, llmAttempts, h0, h1, h2]
    have hcond : (simple_extraction "abc".data).characteristics.length = 0
        ∨ (pyWords (simple_extraction "abc".data).product_name).length = 1 := by decide
    refine ⟨hcall, ?_⟩
    simp only [extract_with_fallback]
    rw [if_pos hcond, hcall]
  · intro h
    have h0 := h 0 (by omega)
    have h1 := h 1 (by omega)
    have h2 := h 2 (by omega)
    simp [call_llm_for_extraction, llmAttempts, h0, h1, h2]

/-! ## C8 — batch isolation -/

/-- C8: if a row's body raises (returns `.error msg`), the row is still
appended with the error message and the literal final description "ERROR",
and every row after it is processed exactly as it would be on its own: no
exception escapes the batch loop. -/
theorem C8_batch_isolation (body : Text → Except Text (Option (ProductInfo × Text)))
    (pre post : List Text) (t msg : Text) (h : body t = .error msg) :
    process_materials body (pre ++ t :: post) =
      process_materials body pre
        ++ ({ original_text := t, structured_info := none,
              final_description := "ERROR".data, error := some msg }
            :: process_materials body post) := by
  induction pre with
  | nil => simp [process_materials, h]
  | cons p ps ih =>
    rcases hb : body p with msg2 | o
    · simp [process_materials, hb, ih]
    · rcases o with _ | ⟨i, f⟩ <;> simp [process_materials, hb, ih]

/-- Witness for C8 at a concrete failing body and batch. -/
theorem C8_batch_isolation_witness :
    process_materials (fun _ => .error "boom".data) (["r1".data] ++ "r2".data :: []) =
      process_materials (fun _ => .error "boom".data) ["r1".data]
        ++ ({ original_text := "r2".data, structured_info := none,
              final_description := "ERROR".data, error := some "boom".data }
            :: process_materials (fun _ => .error "boom".data) []) :=
  C8_batch_isolation (fun _ => .error "boom".data) ["r1".data] [] "r2".data "boom".data rfl

/-! ## C10 — texts with no pipe segments -/

/-- C10: a text whose pipe-split leaves no non-empty trimmed segment makes
the heuristic extractor return the empty fallback structure (empty name,
no characteristics) without touching any counter, and the orchestrator
then always escalates to the generative path (here scripted to succeed:
the call counter moves and the fallback counter does not). -/
theorem C10_no_segments_escalation (text : Text) (c : Counters) (info : ProductInfo)
    (hne : text ≠ []) (h : pipeParts text = []) :
    simple_extraction text =
      { product_name := [], characteristics := [], material_type := "other".data,
        unit_of_measure := "ST".data, categorization := [], short_description := [] }
    ∧ extract_with_fallback (fun _ => .ok info) text c =
        (info, { c with llm_calls := c.llm_calls + 1 }) := by
  have hs : simple_extraction text =
      { product_name := [], characteristics := [], material_type := "other".data,
        unit_of_measure := "ST".data, categorization := [], short_description := [] } := by
    unfold simple_extraction create_fallback_info
    rw [h]
  refine ⟨hs, ?_⟩
  simp [extract_with_fallback, hs, call_llm_for_extraction, llmAttempts]

/-- Witness for C10 at the concrete text "|". -/
theorem C10_no_segments_witness :
    simple_extraction "|".data =
      { product_name := [], characteristics := [], material_type := "other".data,
        unit_of_measure := "ST".data, categorization := [], short_description := [] }
    ∧ extract_with_fallback (fun _ => .ok overlongInfo) "|".data ⟨0, 0, 0⟩ =
        (overlongInfo, { llm_calls := 1, llm_errors := 0, llm_fallbacks := 0 }) :=
  C10_no_segments_escalation "|".data ⟨0, 0, 0⟩ overlongInfo (by decide) (by decide)

/-! ## C9 — product-name shape -/

lemma pyWhite_pyLower (c : Char) : pyWhite (pyLower c) = pyWhite c := by
  unfold pyLower
  rcases hf : lowerPairs.find? (fun p => p.1 = c) with _ | p
  · rw [hf]
  · rw [hf]
    have hmem := List.mem_of_find?_eq_some hf
    have hpc := List.find?_some hf
    have hc : p.1 = c := by simpa using hpc
    subst hc
    fin_cases hmem <;> decide

lemma mem_dropWhile_of_not (p : Char → Bool) (l : Text) (c : Char)
    (hc : c ∈ l) (hp : p c = false) : c ∈ l.dropWhile p := by
  have hsplit := List.takeWhile_append_dropWhile p l
  rcases List.mem_append.mp (by rw [hsplit]; exact hc) with h | h
  · exact absurd (List.mem_takeWhile_imp h) (by simp [hp])
  · exact h

lemma pyStrip_ne_nil_of_mem {l : Text} {c : Char} (hc : c ∈ l) (hw : pyWhite c = false) :
    pyStrip l ≠ [] := by
  unfold pyStrip
  intro h
  have h1 : c ∈ l.dropWhile pyWhite := mem_dropWhile_of_not _ _ _ hc hw
  have h2 : c ∈ (l.dropWhile pyWhite).reverse := List.mem_reverse.mpr h1
  have h3 : c ∈ (l.dropWhile pyWhite).reverse.dropWhile pyWhite :=
    mem_dropWhile_of_not _ _ _ h2 hw
  have h4 : c ∈ ((l.dropWhile pyWhite).reverse.dropWhile pyWhite).reverse :=
    List.mem_reverse.mpr h3
  rw [h] at h4
  exact absurd h4 (List.not_mem_nil c)

lemma pyStrip_getLast_not_white (l : Text) :
    ∀ c, (pyStrip l).getLast? = some c → pyWhite c = false := by
  intro c hc
  unfold pyStrip at hc
  rw [← List.head?_reverse, List.reverse_reverse] at hc
  have hne : (l.dropWhile pyWhite).reverse.dropWhile pyWhite ≠ [] := by
    intro h; rw [h] at hc; exact Option.noConfusion hc
  have hh := List.head_dropWhile_not pyWhite (l.dropWhile pyWhite).reverse hne
  rw [List.head?_eq_head hne] at hc
  have hceq : c = ((l.dropWhile pyWhite).reverse.dropWhile pyWhite).head hne :=
    (Option.some.injEq _ _ ▸ hc).symm
  rw [hceq]
  exact hh

lemma beginsWith_length {pre l : Text} (h : beginsWith pre l = true) :
    pre.length ≤ l.length := by
  induction pre generalizing l with
  | nil => simp
  | cons a as ih =>
    cases l with
    | nil => simp [beginsWith] at h
    | cons b bs =>
      simp only [beginsWith, Bool.and_eq_true, beq_iff_eq] at h
      have := ih h.2
      simp only [List.length_cons]
      omega

lemma beginsWith_eq_of_length {pre l : Text} (h : beginsWith pre l = true)
    (hlen : l.length = pre.length) : l = pre := by
  induction pre generalizing l with
  | nil => cases l with
    | nil => rfl
    | cons b bs => simp at hlen
  | cons a as ih =>
    cases l with
    | nil => simp [beginsWith] at h
    | cons b bs =>
      simp only [beginsWith, Bool.and_eq_true, beq_iff_eq] at h
      simp only [List.length_cons, Nat.add_right_cancel_iff] at hlen
      rw [ih h.2 hlen, h.1]

/-- C9 (amended): whenever the pipe-split leaves at least one non-empty
trimmed segment, both the heuristic path and the fallback path produce the
product name by stripping one leading case-insensitive "für " from the
first segment, and that name is non-empty.  (When no segment remains the
name is empty: see the counterexample.) -/
theorem C9_product_name_amended (text p0 : Text) (rest : List Text)
    (h : pipeParts text = p0 :: rest) :
    (simple_extraction text).product_name = nameOfFirstPart p0
    ∧ (create_fallback_info text).product_name = nameOfFirstPart p0
    ∧ nameOfFirstPart p0 ≠ [] := by
  have hmem : p0 ∈ pipeParts text := by rw [h]; exact List.mem_cons_self _ _
  have hfil := List.mem_filter.mp hmem
  have hne : p0 ≠ [] := by
    intro he; rw [he] at hfil; simp at hfil
  obtain ⟨q, hq, hq0⟩ := List.mem_map.mp hfil.1
  have hlast : ∀ c, p0.getLast? = some c → pyWhite c = false := by
    intro c hc
    exact pyStrip_getLast_not_white q c (by rw [hq0]; exact hc)
  have hnn : nameOfFirstPart p0 ≠ [] := by
    unfold nameOfFirstPart
    split_ifs with hfuer
    · have hlen4 : 4 ≤ p0.length := by
        have hb := beginsWith_length hfuer
        simpa [lowerText] using hb
      have hlen5 : 4 < p0.length := by
        rcases Nat.lt_or_ge 4 p0.length with h5 | h5
        · exact h5
        · exfalso
          have heq : (lowerText p0).length = ("für ".data).length := by
            simp [lowerText]
            omega
          have hfull : lowerText p0 = "für ".data := beginsWith_eq_of_length hfuer heq
          have hl : (lowerText p0).getLast? = some ' ' := by rw [hfull]; rfl
          rw [lowerText, List.getLast?_map] at hl
          rcases hg : p0.getLast? with _ | d
          · rw [hg] at hl; exact Option.noConfusion hl
          · rw [hg] at hl
            rw [Option.map_some'] at hl
            have hl := Option.some.inj hl
            have hw := hlast d hg
            have hpp := pyWhite_pyLower d
            rw [hl, hw] at hpp
            exact absurd hpp (by decide)
      rcases hg : p0.getLast? with _ | d
      · rw [List.getLast?_eq_none_iff] at hg
        exact absurd hg hne
      · have hw := hlast d hg
        have hdl : (p0.drop 4).getLast? = some d := by
          rw [List.getLast?_drop, if_neg (by omega)]
          exact hg
        have hdm : d ∈ p0.drop 4 := List.mem_of_mem_getLast? hdl
        exact pyStrip_ne_nil_of_mem hdm hw
    · exact hne
  refine ⟨?_, ?_, hnn⟩
  · unfold simple_extraction
    rw [h]
  · unfold create_fallback_info
    rw [h]

/-- C9 (counterexample): the text "|" is non-empty and survives
normalization unchanged, yet both the heuristic and the fallback path give
it an empty product name, refuting the claimed non-emptiness. -/
theorem C9_empty_name_counterexample :
    (simple_extraction "|".data).product_name = []
    ∧ (create_fallback_info "|".data).product_name = [] := by decide

/-- Witness for C9 at a concrete text with a "für " prefix. -/
theorem C9_product_name_witness :
    (simple_extraction "für A | B".data).product_name = nameOfFirstPart "für A".data
    ∧ (create_fallback_info "für A | B".data).product_name = nameOfFirstPart "für A".data
    ∧ nameOfFirstPart "für A".data ≠ [] :=
  C9_product_name_amended "für A | B".data "für A".data ["B".data] (by decide)


/-! ## C5 — idempotence of normalization -/

lemma white_ne_slash {c : Char} (h : pyWhite c = true) : c ≠ '/' := by
  intro he
  rw [he] at h
  exact absurd h (by decide)

lemma collapseAux_true_eq_false_of_head {l : Text}
    (h : ∀ c, l.head? = some c → pyWhite c = false) :
    collapseAux true l = collapseAux false l := by
  cases l with
  | nil => rfl
  | cons c cs => simp [collapseAux, h c rfl]

lemma collapse_eq_self : ∀ {l : Text}, SpacesOnly l → NoWW l → collapse l = l := by
  unfold collapse
  intro l
  induction l with
  | nil => intro _ _; rfl
  | cons c cs ih =>
    intro hs hw
    have hs' : SpacesOnly cs := fun d hd h => hs d (List.mem_cons_of_mem _ hd) h
    have hw' : NoWW cs := hw.tail
    by_cases hc : pyWhite c = true
    · have hceq : c = ' ' := hs c (List.mem_cons_self _ _) hc
      have hhead : ∀ d, cs.head? = some d → pyWhite d = false := by
        intro d hd
        have hrel := (List.chain'_cons'.mp hw).1 d (Option.mem_def.mpr hd)
        cases hpw : pyWhite d with
        | false => rfl
        | true => exact absurd ⟨hc, hpw⟩ hrel
      have hstep : collapseAux false (c :: cs) = ' ' :: collapseAux true cs := by
        simp [collapseAux, hc]
      rw [hstep, collapseAux_true_eq_false_of_head hhead, ih hs' hw', hceq]
    · have hstep : collapseAux false (c :: cs) = c :: collapseAux false cs := by
        simp [collapseAux, hc]
      rw [hstep, ih hs' hw']

lemma dropWhile_eq_self_of_head {l : Text} (h : ∀ c, l.head? = some c → pyWhite c = false) :
    l.dropWhile pyWhite = l := by
  cases l with
  | nil => rfl
  | cons c cs => rw [List.dropWhile_cons, if_neg (by simp [h c rfl])]

lemma pyStrip_eq_self {l : Text} (h : TrimmedEnds l) : pyStrip l = l := by
  unfold pyStrip
  rw [dropWhile_eq_self_of_head h.1]
  rw [dropWhile_eq_self_of_head (fun c hc => h.2 c (by rwa [List.head?_reverse] at hc))]
  exact List.reverse_reverse l

lemma replaceDS_eq_self : ∀ {l : Text}, NoDS l → replaceDS l = l := by
  intro l
  induction l using replaceDS.induct with
  | case1 => intro _; rfl
  | case2 c => intro _; rfl
  | case3 a b cs hab ih =>
    intro h
    exact absurd hab (List.chain'_cons.mp h).1
  | case4 a b cs hab ih =>
    intro h
    have := ih (List.chain'_cons.mp h).2
    rw [replaceDS, if_neg hab, this]

lemma normSepAux_eq_self : ∀ {l : Text}, SpacesOnly l → NoWW l →
    (normSepAux .norm l = l
      ∧ ((∀ c, l.head? = some c → pyWhite c = false) → normSepAux (.run [' ']) l = ' ' :: l)
      ∧ normSepAux (.sep [' ']) l = ' ' :: '|' :: l
      ∧ ((∀ c, l.head? = some c → pyWhite c = false) → normSepAux .consume l = l)) := by
  intro l
  induction l with
  | nil => intro _ _; exact ⟨rfl, fun _ => rfl, rfl, fun _ => rfl⟩
  | cons c cs ih =>
    intro hs hw
    have hs' : SpacesOnly cs := fun d hd h => hs d (List.mem_cons_of_mem _ hd) h
    have hw' : NoWW cs := hw.tail
    obtain ⟨ihN, ihR, ihS, ihC⟩ := ih hs' hw'
    by_cases hc : pyWhite c = true
    · have hceq : c = ' ' := hs c (List.mem_cons_self _ _) hc
      have hhead : ∀ d, cs.head? = some d → pyWhite d = false := by
        intro d hd
        have hrel := (List.chain'_cons'.mp hw).1 d (Option.mem_def.mpr hd)
        cases hpw : pyWhite d with
        | false => rfl
        | true => exact absurd ⟨hc, hpw⟩ hrel
      refine ⟨?_, ?_, ?_, ?_⟩
      · have hstep : normSepAux .norm (c :: cs) = normSepAux (.run [c]) cs := by
          simp [normSepAux, hc]
        rw [hstep, hceq, ihR hhead, ← hceq]
      · intro hctr
        exact absurd (hctr c rfl) (by simp [hc])
      · have hstep : normSepAux (.sep [' ']) (c :: cs)
            = ' ' :: '|' :: ' ' :: normSepAux .consume cs := by
          simp [normSepAux, hc]
        rw [hstep, ihC hhead, hceq]
      · intro hctr
        exact absurd (hctr c rfl) (by simp [hc])
    · have hcf : pyWhite c = false := by simpa using hc
      refine ⟨?_, ?_, ?_, ?_⟩
      · have hstep : normSepAux .norm (c :: cs) = c :: normSepAux .norm cs := by
          simp [normSepAux, hcf]
        rw [hstep, ihN]
      · intro _
        by_cases hpipe : c = '|'
        · subst hpipe
          have hstep : normSepAux (.run [' ']) ('|' :: cs) = normSepAux (.sep [' ']) cs := by
            simp [normSepAux, show pyWhite '|' = false from rfl]
          rw [hstep, ihS]
        · have hstep : normSepAux (.run [' ']) (c :: cs)
              = ' ' :: c :: normSepAux .norm cs := by
            simp [normSepAux, hcf, hpipe]
          rw [hstep, ihN]
      · have hstep : normSepAux (.sep [' ']) (c :: cs)
            = ' ' :: '|' :: c :: normSepAux .norm cs := by
          simp [normSepAux, hcf]
        rw [hstep, ihN]
      · intro _
        have hstep : normSepAux .consume (c :: cs) = c :: normSepAux .norm cs := by
          simp [normSepAux, hcf]
        rw [hstep, ihN]

lemma collapseAux_true_head : ∀ (l : Text) (d : Char),
    (collapseAux true l).head? = some d → pyWhite d = false := by
  intro l
  induction l with
  | nil => intro d hd; exact Option.noConfusion hd
  | cons c cs ih =>
    intro d hd
    by_cases hc : pyWhite c = true
    · rw [show collapseAux true (c :: cs) = collapseAux true cs from by simp [collapseAux, hc]]
        at hd
      exact ih d hd
    · rw [show collapseAux true (c :: cs) = c :: collapseAux false cs from by
          simp [collapseAux, hc]] at hd
      simp only [List.head?_cons, Option.some.injEq] at hd
      rw [← hd]
      simpa using hc

lemma collapseAux_false_head : ∀ (l : Text) (d : Char),
    (collapseAux false l).head? = some d → d = ' ' ∨ l.head? = some d := by
  intro l d hd
  cases l with
  | nil => exact Option.noConfusion hd
  | cons c cs =>
    by_cases hc : pyWhite c = true
    · rw [show collapseAux false (c :: cs) = ' ' :: collapseAux true cs from by
          simp [collapseAux, hc]] at hd
      simp only [List.head?_cons, Option.some.injEq] at hd
      exact Or.inl hd.symm
    · rw [show collapseAux false (c :: cs) = c :: collapseAux false cs from by
          simp [collapseAux, hc]] at hd
      simp only [List.head?_cons, Option.some.injEq] at hd
      exact Or.inr (by subst hd; rfl)

lemma collapse_spacesOnly : ∀ (l : Text) (b : Bool), SpacesOnly (collapseAux b l) := by
  intro l
  induction l with
  | nil => intro b d hd _; exact absurd hd (List.not_mem_nil d)
  | cons c cs ih =>
    intro b d hd hw
    by_cases hc : pyWhite c = true
    · cases b with
      | true =>
        rw [show collapseAux true (c :: cs) = collapseAux true cs from by
            simp [collapseAux, hc]] at hd
        exact ih true d hd hw
      | false =>
        rw [show collapseAux false (c :: cs) = ' ' :: collapseAux true cs from by
            simp [collapseAux, hc]] at hd
        rcases List.mem_cons.mp hd with h | h
        · exact h
        · exact ih true d h hw
    · rw [show collapseAux b (c :: cs) = c :: collapseAux false cs from by
          simp [collapseAux, hc]] at hd
      rcases List.mem_cons.mp hd with h | h
      · rw [h] at hw; exact absurd hw hc
      · exact ih false d h hw

lemma collapse_noWW : ∀ (l : Text) (b : Bool), NoWW (collapseAux b l) := by
  intro l
  induction l with
  | nil => intro b; exact List.chain'_nil
  | cons c cs ih =>
    intro b
    by_cases hc : pyWhite c = true
    · cases b with
      | true =>
        rw [show collapseAux true (c :: cs) = collapseAux true cs from by
            simp [collapseAux, hc]]
        exact ih true
      | false =>
        rw [show collapseAux false (c :: cs) = ' ' :: collapseAux true cs from by
            simp [collapseAux, hc]]
        refine List.chain'_cons'.mpr ⟨?_, ih true⟩
        intro y hy ⟨_, hwy⟩
        exact absurd hwy (by simp [collapseAux_true_head cs y (Option.mem_def.mp hy)])
    · rw [show collapseAux b (c :: cs) = c :: collapseAux false cs from by
          simp [collapseAux, hc]]
      refine List.chain'_cons'.mpr ⟨?_, ih false⟩
      intro y hy ⟨hwc, _⟩
      exact absurd hwc hc

lemma collapse_noDS : ∀ {l : Text}, NoDS l → ∀ (b : Bool), NoDS (collapseAux b l) := by
  intro l
  induction l with
  | nil => intro _ b; exact List.chain'_nil
  | cons c cs ih =>
    intro h b
    have h' : NoDS cs := h.tail
    by_cases hc : pyWhite c = true
    · cases b with
      | true =>
        rw [show collapseAux true (c :: cs) = collapseAux true cs from by
            simp [collapseAux, hc]]
        exact ih h' true
      | false =>
        rw [show collapseAux false (c :: cs) = ' ' :: collapseAux true cs from by
            simp [collapseAux, hc]]
        refine List.chain'_cons'.mpr ⟨?_, ih h' true⟩
        intro y hy ⟨habs, _⟩
        exact absurd habs (by decide)
    · rw [show collapseAux b (c :: cs) = c :: collapseAux false cs from by
          simp [collapseAux, hc]]
      refine List.chain'_cons'.mpr ⟨?_, ih h' false⟩
      intro y hy ⟨hcs, hys⟩
      rcases collapseAux_false_head cs y (Option.mem_def.mp hy) with h1 | h1
      · rw [h1] at hys; exact absurd hys (by decide)
      · exact (List.chain'_cons'.mp h).1 y (Option.mem_def.mpr h1) ⟨hcs, hys⟩

lemma pyStrip_subset {l : Text} : ∀ c, c ∈ pyStrip l → c ∈ l := by
  intro c hc
  unfold pyStrip at hc
  have h1 := List.mem_reverse.mp hc
  have h2 := (List.dropWhile_suffix pyWhite).subset h1
  have h3 := List.mem_reverse.mp h2
  exact (List.dropWhile_suffix pyWhite).subset h3

lemma chain'_reverse_symm {R : Char → Char → Prop} (hsym : ∀ a b, R a b → R b a)
    {l : Text} (h : List.Chain' R l) : List.Chain' R l.reverse := by
  rw [List.chain'_reverse]
  exact h.imp (fun a b hr => hsym a b hr)

lemma pyStrip_chain' {R : Char → Char → Prop} (hsym : ∀ a b, R a b → R b a)
    {l : Text} (h : List.Chain' R l) : List.Chain' R (pyStrip l) := by
  unfold pyStrip
  exact chain'_reverse_symm hsym
    (((chain'_reverse_symm hsym (h.suffix (List.dropWhile_suffix pyWhite))).suffix
      (List.dropWhile_suffix pyWhite)))

lemma pyStrip_head_not_white (l : Text) :
    ∀ c, (pyStrip l).head? = some c → pyWhite c = false := by
  intro c hc
  unfold pyStrip at hc
  rw [List.head?_reverse] at hc
  set y := (l.dropWhile pyWhite).reverse with hy
  obtain ⟨t, ht⟩ := List.dropWhile_suffix (l := y) pyWhite
  have hne : y.dropWhile pyWhite ≠ [] := by
    intro habs; rw [habs] at hc; exact Option.noConfusion hc
  have hlast : (y.dropWhile pyWhite).getLast? = y.getLast? := by
    conv_rhs => rw [← ht]
    rw [List.getLast?_append]
    rcases hg : (y.dropWhile pyWhite).getLast? with _ | d
    · exact absurd (List.getLast?_eq_none_iff.mp hg) hne
    · rfl
  rw [hlast, hy, List.getLast?_reverse] at hc
  cases hys : l.dropWhile pyWhite with
  | nil => rw [hys] at hc; exact Option.noConfusion hc
  | cons d ds =>
    have hhd := List.head_dropWhile_not pyWhite l (by rw [hys]; exact List.cons_ne_nil d ds)
    rw [List.head?_eq_head (by rw [hys]; exact List.cons_ne_nil d ds)] at hc
    rw [← Option.some.inj hc]
    exact hhd

lemma noDS_of_no_slash : ∀ {l : Text}, (∀ c ∈ l, c ≠ '/') → NoDS l := by
  intro l
  induction l with
  | nil => intro _; exact List.chain'_nil
  | cons c cs ih =>
    intro h
    refine List.chain'_cons'.mpr ⟨?_, ih (fun d hd => h d (List.mem_cons_of_mem _ hd))⟩
    intro y hy ⟨hc, _⟩
    exact h c (List.mem_cons_self _ _) hc

lemma replaceDS_head (l : Text) :
    ∀ d, (replaceDS l).head? = some d → d = ' ' ∨ l.head? = some d := by
  intro d hd
  match l with
  | [] => exact Option.noConfusion hd
  | [c] => exact Or.inr hd
  | a :: b :: cs =>
    by_cases hab : a = '/' ∧ b = '/'
    · rw [show replaceDS (a :: b :: cs) = ' ' :: '|' :: ' ' :: replaceDS cs from by
          rw [replaceDS, if_pos hab]] at hd
      simp only [List.head?_cons, Option.some.injEq] at hd
      exact Or.inl hd.symm
    · rw [show replaceDS (a :: b :: cs) = a :: replaceDS (b :: cs) from by
          rw [replaceDS, if_neg hab]] at hd
      simp only [List.head?_cons, Option.some.injEq] at hd
      exact Or.inr (by subst hd; rfl)

lemma replaceDS_noDS : ∀ (l : Text), NoDS (replaceDS l) := by
  intro l
  induction l using replaceDS.induct with
  | case1 => exact List.chain'_nil
  | case2 c => exact List.chain'_singleton c
  | case3 a b cs hab ih =>
    rw [replaceDS, if_pos hab]
    refine List.chain'_cons'.mpr ⟨fun y hy h => by exact absurd h.1 (by decide), ?_⟩
    refine List.chain'_cons'.mpr ⟨fun y hy h => by exact absurd h.1 (by decide), ?_⟩
    refine List.chain'_cons'.mpr ⟨fun y hy h => by exact absurd h.1 (by decide), ih⟩
  | case4 a b cs hab ih =>
    rw [replaceDS, if_neg hab]
    refine List.chain'_cons'.mpr ⟨?_, ih⟩
    intro y hy ⟨ha, hys⟩
    rcases replaceDS_head (b :: cs) y (Option.mem_def.mp hy) with h1 | h1
    · rw [h1] at hys; exact absurd hys (by decide)
    · simp only [List.head?_cons, Option.some.injEq] at h1
      exact hab ⟨ha, by rw [h1]; exact hys⟩

lemma head?_append_left {x y : Text} {d : Char} (h : x.head? = some d) :
    (x ++ y).head? = some d := by
  rw [List.head?_append, h]
  rfl

lemma pend_rev_head_white {pend : Text} (hw : ∀ c ∈ pend, pyWhite c = true) :
    ∀ d, pend.reverse.head? = some d → pyWhite d = true := by
  intro d hd
  exact hw d (List.mem_reverse.mp (List.mem_of_mem_head? (Option.mem_def.mpr hd)))

lemma pend_rev_noDS {pend : Text} (hw : ∀ c ∈ pend, pyWhite c = true) :
    NoDS pend.reverse :=
  noDS_of_no_slash (fun c hc => white_ne_slash (hw c (List.mem_reverse.mp hc)))

lemma normSepAux_noDS : ∀ {l : Text}, NoDS l →
    ((NoDS (normSepAux .norm l)
      ∧ (∀ d, (normSepAux .norm l).head? = some d → d = '/' → l.head? = some '/'))
    ∧ (∀ pend, pend ≠ [] → (∀ c ∈ pend, pyWhite c = true) →
        NoDS (normSepAux (.run pend) l)
        ∧ (∀ d, (normSepAux (.run pend) l).head? = some d → pyWhite d = true))
    ∧ (∀ pend, pend ≠ [] → (∀ c ∈ pend, pyWhite c = true) →
        NoDS (normSepAux (.sep pend) l)
        ∧ (∀ d, (normSepAux (.sep pend) l).head? = some d → pyWhite d = true))
    ∧ NoDS (normSepAux .consume l)) := by
  intro l
  induction l with
  | nil =>
    intro _
    refine ⟨⟨List.chain'_nil, fun d hd => Option.noConfusion hd⟩, ?_, ?_, List.chain'_nil⟩
    · intro pend hne hw
      refine ⟨pend_rev_noDS hw, ?_⟩
      intro d hd
      exact pend_rev_head_white hw d hd
    · intro pend hne hw
      constructor
      · refine noDS_of_no_slash ?_
        intro d hd
        rcases List.mem_append.mp hd with h1 | h1
        · exact white_ne_slash (hw d (List.mem_reverse.mp h1))
        · rw [List.mem_singleton.mp h1]; decide
      · intro d hd
        rcases hp : pend.reverse.head? with _ | e
        · rcases pend with _ | ⟨p, ps⟩
          · exact absurd rfl hne
          · rw [List.head?_eq_none_iff] at hp
            exact absurd (List.reverse_eq_nil_iff.mp hp) (List.cons_ne_nil p ps)
        · rw [show normSepAux (.sep pend) [] = pend.reverse ++ ['|'] from rfl,
            head?_append_left hp] at hd
          rw [← Option.some.inj hd]
          exact pend_rev_head_white hw e hp
  | cons c cs ih =>
    intro h
    have h' : NoDS cs := h.tail
    obtain ⟨⟨ihN, ihNh⟩, ihR, ihS, ihC⟩ := ih h'
    have relc : ∀ y, (normSepAux .norm cs).head? = some y → ¬(c = '/' ∧ y = '/') := by
      intro y hy ⟨hcs, hys⟩
      have hcsh := ihNh y hy hys
      exact (List.chain'_cons'.mp h).1 '/' (Option.mem_def.mpr hcsh) ⟨hcs, rfl⟩
    have chainNorm : NoDS (c :: normSepAux .norm cs) := by
      refine List.chain'_cons'.mpr ⟨?_, ihN⟩
      intro y hy
      exact relc y (Option.mem_def.mp hy)
    by_cases hc : pyWhite c = true
    · refine ⟨⟨?_, ?_⟩, ?_, ?_, ?_⟩
      · rw [show normSepAux .norm (c :: cs) = normSepAux (.run [c]) cs from by
            simp [normSepAux, hc]]
        exact (ihR [c] (List.cons_ne_nil c []) (by intro e he; rw [List.mem_singleton.mp he]; exact hc)).1
      · intro d hd hds
        rw [show normSepAux .norm (c :: cs) = normSepAux (.run [c]) cs from by
            simp [normSepAux, hc]] at hd
        have := (ihR [c] (List.cons_ne_nil c []) (by intro e he; rw [List.mem_singleton.mp he]; exact hc)).2 d hd
        rw [hds] at this
        exact absurd this (by decide)
      · intro pend hne hw
        rw [show normSepAux (.run pend) (c :: cs) = normSepAux (.run (c :: pend)) cs from by
            simp [normSepAux, hc]]
        refine ihR (c :: pend) (List.cons_ne_nil c pend) ?_
        intro e he
        rcases List.mem_cons.mp he with h1 | h1
        · rw [h1]; exact hc
        · exact hw e h1
      · intro pend hne hw
        rw [show normSepAux (.sep pend) (c :: cs)
            = ' ' :: '|' :: ' ' :: normSepAux .consume cs from by simp [normSepAux, hc]]
        constructor
        · refine List.chain'_cons'.mpr ⟨fun y hy hp => by exact absurd hp.1 (by decide), ?_⟩
          refine List.chain'_cons'.mpr ⟨fun y hy hp => by exact absurd hp.1 (by decide), ?_⟩
          refine List.chain'_cons'.mpr ⟨fun y hy hp => by exact absurd hp.1 (by decide), ihC⟩
        · intro d hd
          rw [← Option.some.inj hd]
          decide
      · rw [show normSepAux .consume (c :: cs) = normSepAux .consume cs from by
            simp [normSepAux, hc]]
        exact ihC
    · have hcf : pyWhite c = false := by simpa using hc
      refine ⟨⟨?_, ?_⟩, ?_, ?_, ?_⟩
      · rw [show normSepAux .norm (c :: cs) = c :: normSepAux .norm cs from by
            simp [normSepAux, hcf]]
        exact chainNorm
      · intro d hd hds
        rw [show normSepAux .norm (c :: cs) = c :: normSepAux .norm cs from by
            simp [normSepAux, hcf]] at hd
        simp only [List.head?_cons, Option.some.injEq] at hd
        rw [hd, hds]
        rfl
      · intro pend hne hw
        by_cases hpipe : c = '|'
        · subst hpipe
          rw [show normSepAux (.run pend) ('|' :: cs) = normSepAux (.sep pend) cs from by
              simp [normSepAux, show pyWhite '|' = false from rfl]]
          exact ihS pend hne hw
        · rw [show normSepAux (.run pend) (c :: cs)
              = pend.reverse ++ c :: normSepAux .norm cs from by
              simp [normSepAux, hcf, hpipe]]
          constructor
          · refine List.chain'_append.mpr ⟨pend_rev_noDS hw, chainNorm, ?_⟩
            intro x hx y hy
            intro hp
            have hxw : pyWhite x = true := by
              have hxm : x ∈ pend.reverse := List.mem_of_mem_getLast? hx
              exact hw x (List.mem_reverse.mp hxm)
            exact absurd hp.1 (white_ne_slash hxw)
          · intro d hd
            rcases hp : pend.reverse.head? with _ | e
            · rcases pend with _ | ⟨p, ps⟩
              · exact absurd rfl hne
              · rw [List.head?_eq_none_iff] at hp
                exact absurd (List.reverse_eq_nil_iff.mp hp) (List.cons_ne_nil p ps)
            · rw [head?_append_left hp] at hd
              rw [← Option.some.inj hd]
              exact pend_rev_head_white hw e hp
      · intro pend hne hw
        rw [show normSepAux (.sep pend) (c :: cs)
            = pend.reverse ++ '|' :: c :: normSepAux .norm cs from by
            simp [normSepAux, hcf]]
        constructor
        · refine List.chain'_append.mpr ⟨pend_rev_noDS hw, ?_, ?_⟩
          · refine List.chain'_cons'.mpr ⟨fun y hy hp => by exact absurd hp.1 (by decide), chainNorm⟩
          · intro x hx y hy hp
            have hxw : pyWhite x = true := by
              have hxm : x ∈ pend.reverse := List.mem_of_mem_getLast? hx
              exact hw x (List.mem_reverse.mp hxm)
            exact absurd hp.1 (white_ne_slash hxw)
        · intro d hd
          rcases hp : pend.reverse.head? with _ | e
          · rcases pend with _ | ⟨p, ps⟩
            · exact absurd rfl hne
            · rw [List.head?_eq_none_iff] at hp
              exact absurd (List.reverse_eq_nil_iff.mp hp) (List.cons_ne_nil p ps)
          · rw [head?_append_left hp] at hd
            rw [← Option.some.inj hd]
            exact pend_rev_head_white hw e hp
      · rw [show normSepAux .consume (c :: cs) = c :: normSepAux .norm cs from by
            simp [normSepAux, hcf]]
        exact chainNorm

lemma spacesOnly_pyStrip {l : Text} (h : SpacesOnly l) : SpacesOnly (pyStrip l) :=
  fun c hc hw => h c (pyStrip_subset c hc) hw

lemma noWW_symm : ∀ a b : Char,
    ¬(pyWhite a = true ∧ pyWhite b = true) → ¬(pyWhite b = true ∧ pyWhite a = true) :=
  fun _ _ hr ⟨hx, hy⟩ => hr ⟨hy, hx⟩

lemma noDS_symm : ∀ a b : Char, ¬(a = '/' ∧ b = '/') → ¬(b = '/' ∧ a = '/') :=
  fun _ _ hr ⟨hx, hy⟩ => hr ⟨hy, hx⟩

lemma preprocess_props (l : Text) :
    SpacesOnly (preprocess_text l) ∧ NoWW (preprocess_text l)
      ∧ TrimmedEnds (preprocess_text l) ∧ NoDS (preprocess_text l) := by
  unfold preprocess_text
  refine ⟨?_, ?_, ⟨pyStrip_head_not_white _, pyStrip_getLast_not_white _⟩, ?_⟩
  · exact spacesOnly_pyStrip (collapse_spacesOnly _ false)
  · exact pyStrip_chain' noWW_symm (collapse_noWW _ false)
  · have h1 : NoDS (replaceDS (pyStrip (collapse l))) := replaceDS_noDS _
    have h2 : NoDS (normSep (replaceDS (pyStrip (collapse l)))) := ((normSepAux_noDS h1).1).1
    have h3 : NoDS (collapse (normSep (replaceDS (pyStrip (collapse l))))) :=
      collapse_noDS h2 false
    exact pyStrip_chain' noDS_symm h3

lemma preprocess_text_idem (l : Text) :
    preprocess_text (preprocess_text l) = preprocess_text l := by
  obtain ⟨hs, hw, he, hd⟩ := preprocess_props l
  show pyStrip (collapse (normSep (replaceDS (pyStrip (collapse (preprocess_text l))))))
      = preprocess_text l
  rw [show collapse (preprocess_text l) = preprocess_text l from collapse_eq_self hs hw,
      pyStrip_eq_self he,
      replaceDS_eq_self hd,
      show normSep (preprocess_text l) = preprocess_text l from (normSepAux_eq_self hs hw).1,
      show collapse (preprocess_text l) = preprocess_text l from collapse_eq_self hs hw,
      pyStrip_eq_self he]

theorem C5_normalize_idempotent (x : PyInput) :
    preprocess_val (.str (preprocess_val x)) = preprocess_val x := by
  cases x with
  | str s => exact preprocess_text_idem s
  | nonstr => rfl

end ClarifAI
